import Mathlib

/-!
Verification of the budgeted multi-document, multi-query relevant-fragment
selection core of `parser_sentence_transformer.py`.

Shallow embedding conventions:
* Python strings are `List Char`; query strings (used as dict keys) stay `String`.
* The external embedding model is abstracted by a deterministic scoring
  function `score : String → List Char → Int` giving the similarity of a
  query and a chunk text (machine floats are replaced by integers; only the
  ordering of scores matters to the algorithm).
* Python `dict` (insertion ordered) is an association list; `pyDictSet`
  models `d[k] = v`, `dictAppend` models the
  `if k not in d: d[k] = []; d[k] = d[k] + v` idiom of `predict`.
* Python's `sorted` (a stable sort) is embedded as stable insertion sort.
* The `while` allocation loop is run on explicit fuel; the fuel
  `queuesSize qs + 1` is enough because every productive round pops at
  least one candidate.
* Fallible code returns `Except PyErr`; the tuple-unpacking on the fast
  path of `predict` (line 130 of the source) is modelled exactly as Python
  executes it: each converted document string is unpacked into two
  variables, which succeeds only for strings of length exactly 2 (keeping
  the first character) and raises `ValueError` otherwise.
-/

/-- Text of one chunk (or of one whole document): a Python string. -/
abbrev Chunk := List Char

/-- A scored candidate: (document index, chunk index, score), as built in
`predict` lines 136-145. -/
abbrev Cand := Nat × Nat × Int

/-- Errors the embedded code can raise. -/
inductive PyErr where
  | valueError
  deriving DecidableEq

/-- Python dict assignment `d[k] = v` on an insertion-ordered dict modelled
as an association list: replace in place if the key exists, else append. -/
def pyDictSet {α : Type} (d : List (String × α)) (k : String) (v : α) :
    List (String × α) :=
  if d.any (fun p => p.1 == k) then
    d.map (fun p => if p.1 = k then (k, v) else p)
  else d ++ [(k, v)]

/-- Embedding of `embed(queries, chunks)` (source lines 15-26): for each
query the result value is `list(zip(range(len(chunks)), scores_row))`,
i.e. the chunk indices in ascending order paired with their scores.  The
model's similarity matrix is abstracted by `score`. -/
def embed (queries : List String) (chunks : List Chunk)
    (score : String → Chunk → Int) : List (String × List (Nat × Int)) :=
  queries.foldl
    (fun results q =>
      pyDictSet results q
        ((List.range chunks.length).map (fun i => (i, score q (chunks.getD i [])))))
    []

/-- One iteration of the `while len(text) > max_length` loop of
`chunk_to_length` (source lines 109-115), on fuel.  When `0 < maxl` the
fuel `text.length` always suffices, so this computes the Python loop. -/
def chunkGo (maxl : Nat) : Nat → List Char → List (List Char)
  | 0, text => [text]
  | fuel + 1, text =>
    if maxl < text.length then
      text.take maxl :: chunkGo maxl fuel (text.drop maxl)
    else [text]

/-- Embedding of `chunk_to_length(text, max_length)` (source lines 109-115). -/
def chunk_to_length (text : List Char) (maxl : Nat) : List (List Char) :=
  chunkGo maxl text.length text

/-- The `query_embeddings` accumulation idiom of `predict` lines 143-145:
`if query not in qe: qe[query] = []` followed by `qe[query] = qe[query] + v`. -/
def dictAppend (d : List (String × List Cand)) (k : String) (v : List Cand) :
    List (String × List Cand) :=
  if d.any (fun p => p.1 == k) then
    d.map (fun p => if p.1 = k then (p.1, p.2 ++ v) else p)
  else d ++ [(k, v)]

/-- `[(doc_idx, chunk_idx, score) for (chunk_idx, score) in doc_scores]`
(source lines 140-142). -/
def withDoc (d : Nat) (row : List (Nat × Int)) : List Cand :=
  row.map (fun p => (d, p.1, p.2))

/-- The inner loop of `predict` lines 139-145: merge one embedded document
(at document index `d`) into the accumulated `query_embeddings`. -/
def innerFold (d : Nat) (qe : List (String × List Cand))
    (ed : List (String × List (Nat × Int))) : List (String × List Cand) :=
  ed.foldl (fun acc p => dictAppend acc p.1 (withDoc d p.2)) qe

/-- The outer `for doc_idx, embedded_doc in enumerate(embedded_docs)` loop
of `predict` lines 138-145, with the running `enumerate` counter explicit. -/
def buildQEGo : Nat → List (String × List Cand) →
    List (List (String × List (Nat × Int))) → List (String × List Cand)
  | _, qe, [] => qe
  | d, qe, ed :: eds => buildQEGo (d + 1) (innerFold d qe ed) eds

/-- `query_embeddings` of `predict` lines 136-145 built from the embedded
chunked documents. -/
def buildQE (queries : List String) (cds : List (List Chunk))
    (score : String → Chunk → Int) : List (String × List Cand) :=
  buildQEGo 0 [] (cds.map (fun chunks => embed queries chunks score))

/-- The comparison used by `sorted(doc_scores, key=lambda x: x[2],
reverse=True)`: `a` may stay before `b` iff `a`'s score is ≥ `b`'s. -/
def candLe (a b : Cand) : Prop := b.2.2 ≤ a.2.2

instance : DecidableRel candLe := fun a b => inferInstanceAs (Decidable (b.2.2 ≤ a.2.2))

instance : IsTotal Cand candLe := ⟨fun a b => (le_total b.2.2 a.2.2).imp (fun h => h) (fun h => h)⟩

instance : IsTrans Cand candLe := ⟨fun _ _ _ h1 h2 => le_trans h2 h1⟩

/-- The per-query sort of `predict` lines 148-149.  Python's `sorted` is a
stable sort; it is embedded as stable insertion sort with `candLe`. -/
def sortQE (qe : List (String × List Cand)) : List (String × List Cand) :=
  qe.map (fun p => (p.1, List.insertionSort candLe p.2))

/-- The body of the `for query, doc_scores in query_embeddings.items()`
loop of `predict` lines 159-177 for a single query entry: skip an empty
queue, otherwise pop the head candidate, then apply the budget check, the
duplicate check, and the add, threading the selection state. -/
def allocStep (cds : List (List Chunk)) (maxc : Int) (entry : String × List Cand)
    (sel : List (List Nat)) (total : Nat) :
    (String × List Cand) × List (List Nat) × Nat :=
  match entry with
  | (q, []) => ((q, []), sel, total)
  | (q, (d, c, _) :: rest) =>
    let chunk := (cds.getD d []).getD c []
    if maxc < ((total + chunk.length : Nat) : Int) then ((q, rest), sel, total)
    else if c ∈ sel.getD d [] then ((q, rest), sel, total)
    else ((q, rest), sel.set d (sel.getD d [] ++ [c]), total + chunk.length)

/-- One full round of the round-robin `for` loop of `predict`
lines 159-177: visit every query entry once, in dict order. -/
def allocRound (cds : List (List Chunk)) (maxc : Int) :
    List (String × List Cand) → List (List Nat) → Nat →
    List (String × List Cand) × List (List Nat) × Nat
  | [], sel, total => ([], sel, total)
  | e :: es, sel, total =>
    let r := allocStep cds maxc e sel total
    let s := allocRound cds maxc es r.2.1 r.2.2
    (r.1 :: s.1, s.2.1, s.2.2)

/-- `sum([len(x) for x in query_embeddings.values()])` (source line 157). -/
def queuesSize (qs : List (String × List Cand)) : Nat :=
  (qs.map (fun p => p.2.length)).sum

/-- The `while total_chars < max_characters and queuesSize > 0` loop of
`predict` lines 155-177, on fuel. -/
def allocLoopGo (cds : List (List Chunk)) (maxc : Int) :
    Nat → List (String × List Cand) → List (List Nat) → Nat →
    List (List Nat) × Nat
  | 0, _, sel, total => (sel, total)
  | fuel + 1, qs, sel, total =>
    if ((total : Int) < maxc ∧ 0 < queuesSize qs) then
      let r := allocRound cds maxc qs sel total
      allocLoopGo cds maxc fuel r.1 r.2.1 r.2.2
    else (sel, total)

/-- The allocation loop of `predict` lines 153-177.  Every round taken
under a true guard pops at least one candidate, so `queuesSize qs + 1`
units of fuel always run the Python loop to completion. -/
def allocLoop (cds : List (List Chunk)) (maxc : Int)
    (qs : List (String × List Cand)) (sel : List (List Nat)) (total : Nat) :
    List (List Nat) × Nat :=
  allocLoopGo cds maxc (queuesSize qs + 1) qs sel total

/-- The final mapping of `predict` lines 180-183, with the `enumerate`
counter explicit: `[[chunked_docs[d][c] for c in chunks] for d, chunks in
enumerate(document_embeddings)]`. -/
def selToTextsGo (cds : List (List Chunk)) : Nat → List (List Nat) → List (List Chunk)
  | _, [] => []
  | d, l :: rest => l.map (fun c => (cds.getD d []).getD c []) :: selToTextsGo cds (d + 1) rest

/-- The final chunk-index-to-text mapping of `predict` lines 180-183. -/
def selToTexts (cds : List (List Chunk)) (sel : List (List Nat)) : List (List Chunk) :=
  selToTextsGo cds 0 sel

/-- The chunked path of `predict` from `query_embeddings` construction to
the selected per-document chunk-index lists (source lines 136-177):
build, sort, then run the allocation loop from the empty selection. -/
def chunkedSelect (queries : List String) (cds : List (List Chunk)) (maxc : Int)
    (score : String → Chunk → Int) : List (List Nat) :=
  (allocLoop cds maxc (sortQE (buildQE queries cds score))
    (List.replicate cds.length []) 0).1

/-- Embedding of `predict` (source lines 118-185), starting from the
already-converted document texts (document conversion is an external
collaborator).  The fast path models line 130,
`[[doc] for doc, _ in converted_docs]`, exactly as Python executes it:
each document string is tuple-unpacked into two variables, which keeps
only the first character of a length-2 string and raises `ValueError`
for any other length. -/
def predict (queries : List String) (converted_docs : List Chunk)
    (max_characters : Int) (score : String → Chunk → Int) :
    Except PyErr (List (List Chunk)) :=
  let total_doc_lengths := (converted_docs.map List.length).sum
  if ((total_doc_lengths : Int) < max_characters) then
    if converted_docs.all (fun d => d.length == 2) then
      Except.ok (converted_docs.map (fun d => [d.take 1]))
    else Except.error PyErr.valueError
  else
    let chunked_docs := converted_docs.map (fun d => chunk_to_length d 512)
    Except.ok (selToTexts chunked_docs
      (chunkedSelect queries chunked_docs max_characters score))

/-- Strict ascending order on the (document index, chunk index) key of a
candidate: the deterministic tie-break order. -/
def keyLt (a b : Cand) : Prop := a.1 < b.1 ∨ (a.1 = b.1 ∧ a.2.1 < b.2.1)

/-- The full deterministic candidate order claimed for the merged queues:
strictly greater score first, ties in ascending (document, chunk) order. -/
def candR (a b : Cand) : Prop := b.2.2 < a.2.2 ∨ (a.2.2 = b.2.2 ∧ keyLt a b)

/-- Well-formedness of one merged candidate list after the first `d`
documents have been merged: keys strictly ascending (hence duplicate-free)
and every candidate indexing an existing chunk of an existing document. -/
def EntryOk (cds : List (List Chunk)) (d : Nat) (l : List Cand) : Prop :=
  l.Pairwise keyLt ∧
    ∀ c ∈ l, c.1 < d ∧ c.1 < cds.length ∧ c.2.1 < (cds.getD c.1 []).length

/-- All candidates in all queues index an existing chunk of an existing
document. -/
def QOk (cds : List (List Chunk)) (qs : List (String × List Cand)) : Prop :=
  ∀ p ∈ qs, ∀ c ∈ p.2, c.1 < cds.length ∧ c.2.1 < (cds.getD c.1 []).length

/-- Character count of the chunks selected for document `d` by the index
list `l`. -/
def fragLen (cds : List (List Chunk)) (d : Nat) (l : List Nat) : Nat :=
  (l.map (fun c => ((cds.getD d []).getD c []).length)).sum

/-- Total character count of a whole selection state, document `k` first. -/
def sumFragGo (cds : List (List Chunk)) : Nat → List (List Nat) → Nat
  | _, [] => 0
  | d, l :: rest => fragLen cds d l + sumFragGo cds (d + 1) rest

/-- Invariant of the allocation loop's selection state: one index list per
document, all selected indices in range and duplicate-free, the running
total equal to the characters actually selected, and the running total
within the budget (or still zero). -/
def SelInv (cds : List (List Chunk)) (maxc : Int) (sel : List (List Nat))
    (total : Nat) : Prop :=
  sel.length = cds.length ∧
  (∀ d : Nat, ∀ c ∈ sel.getD d [], c < (cds.getD d []).length) ∧
  (∀ d : Nat, (sel.getD d []).Nodup) ∧
  sumFragGo cds 0 sel = total ∧
  ((total : Int) ≤ maxc ∨ total = 0)

example : chunk_to_length "abcdefg".toList 3 = ["abc".toList, "def".toList, "g".toList] := by decide

example : embed ["q"] [['a'], ['b']] (fun _ c => if c = ['b'] then (1 : Int) else 0) =
    [("q", [(0, 0), (1, 1)])] := by decide

example : predict ["q"] ["ab".toList] 100 (fun _ _ => 0) = Except.ok [[['a']]] := rfl

example : predict ["q"] ["abc".toList] 100 (fun _ _ => 0) = Except.error PyErr.valueError := rfl

example : predict ["q"] ["abc".toList] 2 (fun _ _ => 0) = Except.ok [[]] := rfl

example : predict ["q"] ["abc".toList] 3 (fun _ _ => 0) = Except.ok [["abc".toList]] := rfl

/-! ### Chunker lemmas -/

theorem chunkGo_flatten (maxl : Nat) :
    ∀ (fuel : Nat) (text : List Char), (chunkGo maxl fuel text).flatten = text := by
  intro fuel
  induction fuel with
  | zero => intro text; simp [chunkGo]
  | succ n ih =>
    intro text
    rw [chunkGo]
    split
    · simp [ih]
    · simp

theorem chunkGo_ne_nil (maxl fuel : Nat) (text : List Char) :
    chunkGo maxl fuel text ≠ [] := by
  cases fuel with
  | zero => simp [chunkGo]
  | succ n =>
    rw [chunkGo]
    split <;> simp

theorem chunkGo_dropLast (maxl : Nat) :
    ∀ (fuel : Nat) (text : List Char),
      ∀ ch ∈ (chunkGo maxl fuel text).dropLast, ch.length = maxl := by
  intro fuel
  induction fuel with
  | zero => intro text; simp [chunkGo]
  | succ n ih =>
    intro text ch hch
    rw [chunkGo] at hch
    split at hch
    · rw [List.dropLast_cons_of_ne_nil (chunkGo_ne_nil maxl n _)] at hch
      rcases List.mem_cons.mp hch with h | h
      · subst h
        rename_i hlen
        simp [List.length_take, Nat.min_eq_left (Nat.le_of_lt hlen)]
      · exact ih _ ch h
    · simp at hch

theorem chunkGo_length (maxl : Nat) (hm : 0 < maxl) :
    ∀ (fuel : Nat) (text : List Char), text.length ≤ fuel →
      (chunkGo maxl fuel text).length = max 1 ((text.length + maxl - 1) / maxl) := by
  intro fuel
  induction fuel with
  | zero =>
    intro text hf
    have h0 : text.length = 0 := Nat.le_zero.mp hf
    have h2 : (maxl - 1) / maxl = 0 := Nat.div_eq_of_lt (by omega)
    simp [chunkGo, h0, h2]
  | succ n ih =>
    intro text hf
    rw [chunkGo]
    split
    · rename_i hlt
      have hdrop : (text.drop maxl).length ≤ n := by
        simp only [List.length_drop]; omega
      rw [List.length_cons, ih _ hdrop, List.length_drop]
      have e1 : text.length - maxl + maxl - 1 = text.length - 1 := by omega
      have e2 : (text.length + maxl - 1) / maxl = (text.length - 1) / maxl + 1 := by
        rw [show text.length + maxl - 1 = (text.length - 1) + maxl by omega,
          Nat.add_div_right _ hm]
      have e3 : 1 ≤ (text.length - 1) / maxl := by
        rw [Nat.one_le_div_iff hm]; omega
      rw [e1, e2, Nat.max_eq_right e3, Nat.max_eq_right (Nat.le_succ_of_le e3)]
    · rename_i hnlt
      simp only [List.length_singleton]
      rcases Nat.eq_zero_or_pos text.length with h0 | h1
      · have h2 : (maxl - 1) / maxl = 0 := Nat.div_eq_of_lt (by omega)
        simp [h0, h2]
      · have key : (text.length + maxl - 1) / maxl = (text.length - 1) / maxl + 1 := by
          rw [show text.length + maxl - 1 = (text.length - 1) + maxl by omega,
            Nat.add_div_right _ hm]
        have hsmall : (text.length - 1) / maxl = 0 := Nat.div_eq_of_lt (by omega)
        rw [key, hsmall]
        simp

/-! ### Dict and embed lemmas -/

theorem mem_pyDictSet {α : Type} {d : List (String × α)} {k : String} {v : α}
    {p : String × α} (h : p ∈ pyDictSet d k v) : p ∈ d ∨ p = (k, v) := by
  unfold pyDictSet at h
  split at h
  · rcases List.mem_map.mp h with ⟨p', hp', heq⟩
    by_cases hk : p'.1 = k
    · right; rw [← heq]; simp [hk]
    · left; rw [← heq]; simpa [hk] using hp'
  · rcases List.mem_append.mp h with hin | hsingle
    · exact Or.inl hin
    · exact Or.inr (by simpa using hsingle)

theorem pyDictSet_keys {α : Type} (d : List (String × α)) (k : String) (v : α) :
    (pyDictSet d k v).map Prod.fst = d.map Prod.fst ∨
      (pyDictSet d k v).map Prod.fst = d.map Prod.fst ++ [k] := by
  unfold pyDictSet
  split
  · left
    rw [List.map_map]
    apply List.map_congr_left
    intro p _
    by_cases hk : p.1 = k <;> simp [hk]
  · right; simp

theorem pyDictSet_keys_nodup {α : Type} {d : List (String × α)} {k : String} {v : α}
    (hd : (d.map Prod.fst).Nodup)
    (hfresh : ¬ (d.any (fun p => p.1 == k)) = true → k ∉ d.map Prod.fst) :
    ((pyDictSet d k v).map Prod.fst).Nodup := by
  unfold pyDictSet
  split
  · rename_i hany
    have : (d.map (fun p => if p.1 = k then (k, v) else p)).map Prod.fst = d.map Prod.fst := by
      rw [List.map_map]
      apply List.map_congr_left
      intro p _
      by_cases hk : p.1 = k <;> simp [hk]
    rw [this]; exact hd
  · rename_i hany
    have hk : k ∉ d.map Prod.fst := hfresh hany
    simp only [List.map_append, List.map_cons, List.map_nil]
    rw [List.nodup_append]
    refine ⟨hd, List.nodup_singleton k, ?_⟩
    intro a ha hmem
    simp only [List.mem_singleton] at hmem
    exact hk (hmem ▸ ha)

theorem embed_mem {queries : List String} {chunks : List Chunk}
    {score : String → Chunk → Int} {p : String × List (Nat × Int)}
    (h : p ∈ embed queries chunks score) :
    p.2 = (List.range chunks.length).map (fun i => (i, score p.1 (chunks.getD i []))) := by
  unfold embed at h
  suffices H : ∀ (qs : List String) (acc : List (String × List (Nat × Int))),
      (∀ p' ∈ acc, p'.2 =
        (List.range chunks.length).map (fun i => (i, score p'.1 (chunks.getD i [])))) →
      ∀ p' ∈ qs.foldl (fun results q => pyDictSet results q
        ((List.range chunks.length).map (fun i => (i, score q (chunks.getD i []))))) acc,
        p'.2 = (List.range chunks.length).map (fun i => (i, score p'.1 (chunks.getD i []))) by
    exact H queries [] (by simp) p h
  intro qs
  induction qs with
  | nil => intro acc hacc p' hp'; exact hacc p' hp'
  | cons q qs ih =>
    intro acc hacc p' hp'
    refine ih _ ?_ p' hp'
    intro p'' hp''
    rcases mem_pyDictSet hp'' with hin | heq
    · exact hacc p'' hin
    · subst heq; rfl

theorem embed_keys_nodup (queries : List String) (chunks : List Chunk)
    (score : String → Chunk → Int) :
    ((embed queries chunks score).map Prod.fst).Nodup := by
  unfold embed
  suffices H : ∀ (qs : List String) (acc : List (String × List (Nat × Int))),
      (acc.map Prod.fst).Nodup →
      ((qs.foldl (fun results q => pyDictSet results q
        ((List.range chunks.length).map (fun i => (i, score q (chunks.getD i []))))) acc).map
          Prod.fst).Nodup by
    exact H queries [] (by simp)
  intro qs
  induction qs with
  | nil => intro acc hacc; exact hacc
  | cons q qs ih =>
    intro acc hacc
    refine ih _ ?_
    apply pyDictSet_keys_nodup hacc
    intro hany hmem
    apply hany
    simp only [List.any_eq_true]
    rcases List.mem_map.mp hmem with ⟨p, hp, hpk⟩
    exact ⟨p, hp, by simp [hpk]⟩

theorem mem_dictAppend {qe : List (String × List Cand)} {k : String} {v : List Cand}
    {p : String × List Cand} (h : p ∈ dictAppend qe k v) :
    (p ∈ qe ∧ p.1 ≠ k) ∨ (∃ p' ∈ qe, p'.1 = k ∧ p = (k, p'.2 ++ v)) ∨ p = (k, v) := by
  unfold dictAppend at h
  split at h
  · rcases List.mem_map.mp h with ⟨p', hp', heq⟩
    by_cases hk : p'.1 = k
    · right; left
      exact ⟨p', hp', hk, by rw [← heq]; simp [hk]⟩
    · left
      constructor
      · rw [← heq]; simpa [hk] using hp'
      · rw [← heq]; simp [hk]
  · rename_i hany
    rcases List.mem_append.mp h with hin | hsingle
    · left
      refine ⟨hin, ?_⟩
      intro hk
      apply hany
      simp only [List.any_eq_true]
      exact ⟨p, hin, by simp [hk]⟩
    · right; right; simpa using hsingle

/-! ### Merged-queue construction invariants -/

theorem EntryOk_mono {cds : List (List Chunk)} {d d' : Nat} {l : List Cand}
    (hdd : d ≤ d') (h : EntryOk cds d l) : EntryOk cds d' l := by
  refine ⟨h.1, fun c hc => ?_⟩
  have := h.2 c hc
  exact ⟨lt_of_lt_of_le this.1 hdd, this.2.1, this.2.2⟩

theorem withDoc_pairwise {d : Nat} {row : List (Nat × Int)}
    (h : row.Pairwise (fun r s => r.1 < s.1)) : (withDoc d row).Pairwise keyLt := by
  unfold withDoc
  rw [List.pairwise_map]
  exact h.imp (fun hrs => Or.inr ⟨rfl, hrs⟩)

theorem mem_withDoc {d : Nat} {row : List (Nat × Int)} {c : Cand}
    (h : c ∈ withDoc d row) : c.1 = d ∧ ∃ r ∈ row, c.2.1 = r.1 := by
  unfold withDoc at h
  rcases List.mem_map.mp h with ⟨r, hr, heq⟩
  exact ⟨by rw [← heq], r, hr, by rw [← heq]⟩

theorem EntryOk_append_new {cds : List (List Chunk)} {d : Nat} {l : List Cand}
    {row : List (Nat × Int)} (hl : EntryOk cds d l) (hd : d < cds.length)
    (hrow : ∀ r ∈ row, r.1 < (cds.getD d []).length)
    (hpw : row.Pairwise (fun r s => r.1 < s.1)) :
    EntryOk cds (d + 1) (l ++ withDoc d row) := by
  constructor
  · rw [List.pairwise_append]
    refine ⟨hl.1, withDoc_pairwise hpw, ?_⟩
    intro a ha b hb
    rcases mem_withDoc hb with ⟨hb1, _⟩
    exact Or.inl (by rw [hb1]; exact (hl.2 a ha).1)
  · intro c hc
    rcases List.mem_append.mp hc with h1 | h2
    · have := hl.2 c h1
      exact ⟨Nat.lt_succ_of_lt this.1, this.2.1, this.2.2⟩
    · rcases mem_withDoc h2 with ⟨hc1, r, hr, hc2⟩
      refine ⟨by omega, by omega, ?_⟩
      rw [hc1, hc2]
      exact hrow r hr

theorem innerFold_entryOk (cds : List (List Chunk)) (d : Nat) :
    ∀ (ed : List (String × List (Nat × Int))) (qe : List (String × List Cand)),
      (ed.map Prod.fst).Nodup →
      (∀ p ∈ ed, ∀ r ∈ p.2, r.1 < (cds.getD d []).length) →
      d < cds.length →
      (∀ p ∈ ed, p.2.Pairwise (fun r s => r.1 < s.1)) →
      (∀ p ∈ qe, EntryOk cds (d + 1) p.2 ∧ (p.1 ∈ ed.map Prod.fst → EntryOk cds d p.2)) →
      ∀ p ∈ innerFold d qe ed, EntryOk cds (d + 1) p.2 := by
  intro ed
  induction ed with
  | nil =>
    intro qe _ _ _ _ hqe p hp
    exact (hqe p hp).1
  | cons e ed ih =>
    intro qe hnd hbound hd hpw hqe p hp
    have hstep : innerFold d qe (e :: ed) =
        innerFold d (dictAppend qe e.1 (withDoc d e.2)) ed := rfl
    rw [hstep] at hp
    rw [List.map_cons] at hnd
    have hnd' : (ed.map Prod.fst).Nodup := (List.nodup_cons.mp hnd).2
    have hknotin : e.1 ∉ ed.map Prod.fst := (List.nodup_cons.mp hnd).1
    refine ih (dictAppend qe e.1 (withDoc d e.2)) hnd'
      (fun p hp => hbound p (List.mem_cons_of_mem _ hp)) hd
      (fun p hp => hpw p (List.mem_cons_of_mem _ hp)) ?_ p hp
    intro p' hp'
    rcases mem_dictAppend hp' with ⟨hin, hne⟩ | ⟨p'', hp'', hk, heq⟩ | heq
    · refine ⟨(hqe p' hin).1, fun hmem => (hqe p' hin).2 ?_⟩
      exact List.mem_cons_of_mem _ hmem
    · have hold : EntryOk cds d p''.2 :=
        (hqe p'' hp'').2 (by rw [hk]; exact List.mem_cons_self _ _)
      constructor
      · rw [heq]
        exact EntryOk_append_new hold hd
          (fun r hr => hbound e (List.mem_cons_self _ _) r hr)
          (hpw e (List.mem_cons_self _ _))
      · intro hmem
        rw [heq] at hmem
        exact absurd (by simpa using hmem) hknotin
    · constructor
      · rw [heq]
        have : EntryOk cds (d + 1) ([] ++ withDoc d e.2) :=
          EntryOk_append_new (by constructor <;> simp) hd
            (fun r hr => hbound e (List.mem_cons_self _ _) r hr)
            (hpw e (List.mem_cons_self _ _))
        simpa using this
      · intro hmem
        rw [heq] at hmem
        exact absurd (by simpa using hmem) hknotin

theorem drop_cons_facts : ∀ (cds : List (List Chunk)) (d : Nat)
    {chunks : List Chunk} {rest : List (List Chunk)},
    cds.drop d = chunks :: rest →
    d < cds.length ∧ cds.getD d [] = chunks ∧ cds.drop (d + 1) = rest := by
  intro cds
  induction cds with
  | nil => intro d chunks rest h; simp at h
  | cons x l ih =>
    intro d chunks rest h
    cases d with
    | zero =>
      simp only [List.drop_zero] at h
      cases h
      exact ⟨by simp, by simp, by simp⟩
    | succ n =>
      rw [List.drop_succ_cons] at h
      obtain ⟨h1, h2, h3⟩ := ih n h
      exact ⟨by simpa using Nat.succ_lt_succ h1, by simpa using h2,
        by simpa using h3⟩

theorem embed_row_bound {queries : List String} {chunks : List Chunk}
    {score : String → Chunk → Int} {p : String × List (Nat × Int)}
    (hp : p ∈ embed queries chunks score) :
    (∀ r ∈ p.2, r.1 < chunks.length) ∧ p.2.Pairwise (fun r s => r.1 < s.1) := by
  rw [embed_mem hp]
  constructor
  · intro r hr
    rcases List.mem_map.mp hr with ⟨i, hi, heq⟩
    rw [← heq]
    simpa using List.mem_range.mp hi
  · rw [List.pairwise_map]
    exact (List.pairwise_lt_range _).imp (fun h => by simpa using h)

theorem buildQEGo_entryOk (queries : List String) (score : String → Chunk → Int)
    (cds : List (List Chunk)) :
    ∀ (s : List (List Chunk)) (d : Nat) (qe : List (String × List Cand)),
      cds.drop d = s →
      (∀ p ∈ qe, EntryOk cds d p.2) →
      ∀ p ∈ buildQEGo d qe (s.map (fun chunks => embed queries chunks score)),
        EntryOk cds (d + s.length) p.2 := by
  intro s
  induction s with
  | nil =>
    intro d qe _ hqe p hp
    simpa using hqe p (by simpa [buildQEGo] using hp)
  | cons chunks rest ih =>
    intro d qe hdrop hqe p hp
    obtain ⟨hlt, hgetD, hdrop'⟩ := drop_cons_facts cds d hdrop
    simp only [List.map_cons, buildQEGo] at hp
    have hinner : ∀ p' ∈ innerFold d qe (embed queries chunks score),
        EntryOk cds (d + 1) p'.2 := by
      apply innerFold_entryOk cds d (embed queries chunks score) qe
        (embed_keys_nodup queries chunks score)
      · intro p' hp' r hr
        rw [hgetD]
        exact (embed_row_bound hp').1 r hr
      · exact hlt
      · intro p' hp'
        exact (embed_row_bound hp').2
      · intro p' hp'
        exact ⟨EntryOk_mono (Nat.le_succ d) (hqe p' hp'), fun _ => hqe p' hp'⟩
    have := ih (d + 1) (innerFold d qe (embed queries chunks score)) hdrop' hinner p hp
    have harith : d + 1 + rest.length = d + (chunks :: rest).length := by
      simp [List.length_cons]; omega
    rw [← harith]
    exact this

theorem buildQE_entryOk (queries : List String) (cds : List (List Chunk))
    (score : String → Chunk → Int) :
    ∀ p ∈ buildQE queries cds score, EntryOk cds cds.length p.2 := by
  intro p hp
  have := buildQEGo_entryOk queries score cds cds 0 [] (by simp) (by simp) p
    (by simpa [buildQE] using hp)
  simpa using this

theorem mem_sortQE {qe : List (String × List Cand)} {p : String × List Cand}
    (hp : p ∈ sortQE qe) :
    ∃ p' ∈ qe, p = (p'.1, List.insertionSort candLe p'.2) := by
  unfold sortQE at hp
  rcases List.mem_map.mp hp with ⟨p', hp', heq⟩
  exact ⟨p', hp', heq.symm⟩

/-! ### Stability of the per-query sort -/

theorem orderedInsert_pairwise_candR (a : Cand) :
    ∀ l : List Cand, l.Pairwise candR → l.Sorted candLe →
      (∀ b ∈ l, a.2.2 = b.2.2 → keyLt a b) →
      (List.orderedInsert candLe a l).Pairwise candR
  | [], _, _, _ => by simp [List.orderedInsert]
  | b :: t, hp, hs, hk => by
    rw [List.orderedInsert]
    split
    · rename_i hab
      constructor
      · intro x hx
        have hxb : x.2.2 ≤ b.2.2 := by
          rcases List.mem_cons.mp hx with h | h
          · exact h ▸ le_refl _
          · exact (List.rel_of_sorted_cons hs) x h
        have hxa : x.2.2 ≤ a.2.2 := le_trans hxb hab
        rcases lt_or_eq_of_le hxa with hlt | heq
        · exact Or.inl hlt
        · exact Or.inr ⟨heq.symm, hk x hx heq.symm⟩
      · exact hp
    · rename_i hab
      have hba : a.2.2 < b.2.2 := lt_of_not_le hab
      constructor
      · intro x hx
        rcases (List.mem_orderedInsert candLe).mp hx with h | h
        · exact h ▸ Or.inl hba
        · exact (List.pairwise_cons.mp hp).1 x h
      · exact orderedInsert_pairwise_candR a t (List.pairwise_cons.mp hp).2
          (List.sorted_cons.mp hs).2
          (fun x hx => hk x (List.mem_cons_of_mem _ hx))

theorem insertionSort_pairwise_candR :
    ∀ l : List Cand, l.Pairwise (fun a b => a.2.2 = b.2.2 → keyLt a b) →
      (List.insertionSort candLe l).Pairwise candR
  | [], _ => by simp [List.insertionSort]
  | a :: l, h => by
    rw [List.insertionSort]
    have h1 := (List.pairwise_cons.mp h).1
    have h2 := (List.pairwise_cons.mp h).2
    apply orderedInsert_pairwise_candR
    · exact insertionSort_pairwise_candR l h2
    · exact List.sorted_insertionSort candLe l
    · intro b hb heq
      exact h1 b ((List.perm_insertionSort candLe l).subset hb) heq

/-! ### List indexing helpers -/

theorem getD_set_self {α : Type} : ∀ (l : List α) (i : Nat) (v x : α), i < l.length →
    (l.set i v).getD i x = v := by
  intro l
  induction l with
  | nil => intro i v x h; simp at h
  | cons a t ih =>
    intro i v x h
    cases i with
    | zero => simp
    | succ n => simpa using ih n v x (by simpa using h)

theorem getD_set_other {α : Type} : ∀ (l : List α) (i j : Nat) (v x : α), i ≠ j →
    (l.set i v).getD j x = l.getD j x := by
  intro l
  induction l with
  | nil => intro i j v x _; simp
  | cons a t ih =>
    intro i j v x h
    cases i with
    | zero =>
      cases j with
      | zero => exact absurd rfl h
      | succ m => simp
    | succ n =>
      cases j with
      | zero => simp
      | succ m => simpa using ih n m v x (by omega)

theorem getD_replicate {α : Type} (x : α) : ∀ (n d : Nat),
    (List.replicate n x).getD d x = x := by
  intro n
  induction n with
  | zero => intro d; simp
  | succ m ih =>
    intro d
    cases d with
    | zero => simp [List.replicate_succ]
    | succ k => rw [List.replicate_succ, List.getD_cons_succ]; exact ih k

/-! ### Selection state lemmas -/

theorem fragLen_append (cds : List (List Chunk)) (d : Nat) (l : List Nat) (c : Nat) :
    fragLen cds d (l ++ [c]) = fragLen cds d l + ((cds.getD d []).getD c []).length := by
  simp [fragLen]

theorem sumFragGo_set (cds : List (List Chunk)) :
    ∀ (sel : List (List Nat)) (k d c : Nat), d < sel.length →
      sumFragGo cds k (sel.set d (sel.getD d [] ++ [c])) =
        sumFragGo cds k sel + ((cds.getD (k + d) []).getD c []).length := by
  intro sel
  induction sel with
  | nil => intro k d c h; simp at h
  | cons l rest ih =>
    intro k d c h
    cases d with
    | zero =>
      simp only [List.getD_cons_zero, List.set_cons_zero, sumFragGo]
      rw [fragLen_append]
      simp only [Nat.add_zero]
      omega
    | succ n =>
      simp only [List.getD_cons_succ, List.set_cons_succ, sumFragGo]
      rw [ih (k + 1) n c (by simpa using h)]
      rw [show k + 1 + n = k + (n + 1) from by omega]
      omega

theorem sumFragGo_replicate (cds : List (List Chunk)) :
    ∀ (n k : Nat), sumFragGo cds k (List.replicate n []) = 0 := by
  intro n
  induction n with
  | zero => intro k; rfl
  | succ m ih => intro k; simp [List.replicate_succ, sumFragGo, fragLen, ih]

theorem selToTextsGo_sum (cds : List (List Chunk)) :
    ∀ (sel : List (List Nat)) (k : Nat),
      ((selToTextsGo cds k sel).map (fun l => (l.map List.length).sum)).sum =
        sumFragGo cds k sel := by
  intro sel
  induction sel with
  | nil => intro k; rfl
  | cons l rest ih =>
    intro k
    simp only [selToTextsGo, List.map_cons, List.sum_cons, sumFragGo, fragLen,
      List.map_map, Function.comp_def]
    rw [ih]

theorem selToTextsGo_replicate (cds : List (List Chunk)) :
    ∀ (n k : Nat), selToTextsGo cds k (List.replicate n []) = List.replicate n [] := by
  intro n
  induction n with
  | zero => intro k; rfl
  | succ m ih => intro k; simp [List.replicate_succ, selToTextsGo, ih]

/-! ### Allocation loop invariants -/

theorem allocStep_fst (cds : List (List Chunk)) (maxc : Int) (e : String × List Cand)
    (sel : List (List Nat)) (total : Nat) :
    (allocStep cds maxc e sel total).1 = (e.1, e.2.tail) := by
  rcases e with ⟨q, l⟩
  cases l with
  | nil => rfl
  | cons hd rest =>
    rcases hd with ⟨d, c, s⟩
    simp only [allocStep]
    split
    · rfl
    · split <;> rfl

theorem allocRound_fst (cds : List (List Chunk)) (maxc : Int) :
    ∀ (qs : List (String × List Cand)) (sel : List (List Nat)) (total : Nat),
      (allocRound cds maxc qs sel total).1 = qs.map (fun p => (p.1, p.2.tail)) := by
  intro qs
  induction qs with
  | nil => intro sel total; rfl
  | cons e es ih =>
    intro sel total
    simp only [allocRound, List.map_cons]
    rw [allocStep_fst, ih]

theorem allocStep_selInv (cds : List (List Chunk)) (maxc : Int)
    (e : String × List Cand) (sel : List (List Nat)) (total : Nat)
    (he : ∀ c ∈ e.2, c.1 < cds.length ∧ c.2.1 < (cds.getD c.1 []).length)
    (h : SelInv cds maxc sel total) :
    SelInv cds maxc (allocStep cds maxc e sel total).2.1
      (allocStep cds maxc e sel total).2.2 := by
  obtain ⟨h1, h2, h3, h4, h5⟩ := h
  rcases e with ⟨q, l⟩
  cases l with
  | nil => exact ⟨h1, h2, h3, h4, h5⟩
  | cons hd rest =>
    rcases hd with ⟨d, c, s⟩
    have hdc := he (d, c, s) (List.mem_cons_self _ _)
    simp only at hdc
    simp only [allocStep]
    split
    · exact ⟨h1, h2, h3, h4, h5⟩
    · split
      · exact ⟨h1, h2, h3, h4, h5⟩
      · rename_i hbudget hdup
        have hdsel : d < sel.length := by rw [h1]; exact hdc.1
        refine ⟨by rw [List.length_set]; exact h1, ?_, ?_, ?_, ?_⟩
        · intro d' x hx
          by_cases hd' : d = d'
          · subst hd'
            rw [getD_set_self sel d _ [] hdsel] at hx
            rcases List.mem_append.mp hx with hin | hc
            · exact h2 d x hin
            · rw [List.mem_singleton.mp hc]
              exact hdc.2
          · rw [getD_set_other sel d d' _ [] hd'] at hx
            exact h2 d' x hx
        · intro d'
          by_cases hd' : d = d'
          · subst hd'
            rw [getD_set_self sel d _ [] hdsel]
            rw [List.nodup_append]
            refine ⟨h3 d, List.nodup_singleton c, ?_⟩
            intro a ha hmem
            rw [List.mem_singleton.mp hmem] at ha
            exact hdup ha
          · rw [getD_set_other sel d d' _ [] hd']
            exact h3 d'
        · rw [sumFragGo_set cds sel 0 d c hdsel, Nat.zero_add, h4]
        · left
          have := Int.not_lt.mp hbudget
          push_cast at this ⊢
          omega

theorem allocRound_selInv (cds : List (List Chunk)) (maxc : Int) :
    ∀ (qs : List (String × List Cand)) (sel : List (List Nat)) (total : Nat),
      QOk cds qs → SelInv cds maxc sel total →
      SelInv cds maxc (allocRound cds maxc qs sel total).2.1
        (allocRound cds maxc qs sel total).2.2 := by
  intro qs
  induction qs with
  | nil => intro sel total _ h; exact h
  | cons e es ih =>
    intro sel total hq h
    simp only [allocRound]
    exact ih _ _ (fun p hp => hq p (List.mem_cons_of_mem _ hp))
      (allocStep_selInv cds maxc e sel total (hq e (List.mem_cons_self _ _)) h)

theorem allocRound_QOk (cds : List (List Chunk)) (maxc : Int)
    (qs : List (String × List Cand)) (sel : List (List Nat)) (total : Nat)
    (hq : QOk cds qs) : QOk cds (allocRound cds maxc qs sel total).1 := by
  rw [allocRound_fst]
  intro p hp c hc
  rcases List.mem_map.mp hp with ⟨p', hp', heq⟩
  apply hq p' hp'
  rw [← heq] at hc
  exact List.mem_of_mem_tail hc

theorem allocLoopGo_selInv (cds : List (List Chunk)) (maxc : Int) :
    ∀ (fuel : Nat) (qs : List (String × List Cand)) (sel : List (List Nat)) (total : Nat),
      QOk cds qs → SelInv cds maxc sel total →
      SelInv cds maxc (allocLoopGo cds maxc fuel qs sel total).1
        (allocLoopGo cds maxc fuel qs sel total).2 := by
  intro fuel
  induction fuel with
  | zero => intro qs sel total _ h; exact h
  | succ n ih =>
    intro qs sel total hq h
    by_cases hcond : ((total : Int) < maxc ∧ 0 < queuesSize qs)
    · simp only [allocLoopGo, if_pos hcond]
      exact ih _ _ _ (allocRound_QOk cds maxc qs sel total hq)
        (allocRound_selInv cds maxc qs sel total hq h)
    · simp only [allocLoopGo, if_neg hcond]
      exact h

theorem selInv_init (cds : List (List Chunk)) (maxc : Int) :
    SelInv cds maxc (List.replicate cds.length []) 0 := by
  refine ⟨by simp, ?_, ?_, sumFragGo_replicate cds cds.length 0, Or.inr rfl⟩
  · intro d x hx
    rw [getD_replicate] at hx
    simp at hx
  · intro d
    rw [getD_replicate]
    exact List.nodup_nil

theorem sortQE_buildQE_QOk (queries : List String) (cds : List (List Chunk))
    (score : String → Chunk → Int) :
    QOk cds (sortQE (buildQE queries cds score)) := by
  intro p hp c hc
  rcases mem_sortQE hp with ⟨p', hp', heq⟩
  have hc' : c ∈ p'.2 := by
    rw [heq] at hc
    exact (List.perm_insertionSort candLe p'.2).subset hc
  have := (buildQE_entryOk queries cds score p' hp').2 c hc'
  exact ⟨this.2.1, this.2.2⟩

theorem chunkedSelect_selInv (queries : List String) (cds : List (List Chunk))
    (maxc : Int) (score : String → Chunk → Int) :
    SelInv cds maxc (chunkedSelect queries cds maxc score)
      (allocLoop cds maxc (sortQE (buildQE queries cds score))
        (List.replicate cds.length []) 0).2 :=
  allocLoopGo_selInv cds maxc _ _ _ _ (sortQE_buildQE_QOk queries cds score)
    (selInv_init cds maxc)

/-! ### Claim theorems -/

/-- Claim C1 (code bug): the fast path of `predict` does not return each
document's full converted text.  Line 130, `[[doc] for doc, _ in
converted_docs]`, tuple-unpacks each converted document string, so on the
concrete input queries `["q"]`, one converted document `"abc"` and
`max_characters = 100` (total length 3 < 100, fast path) the code raises
`ValueError` instead of returning `[["abc"]]`; and on a length-2 document
`"ab"` it returns only the first character `"a"` instead of `"ab"`. -/
theorem C1_fast_path_crash :
    predict ["q"] ["abc".toList] 100 (fun _ _ => 0) = Except.error PyErr.valueError ∧
    predict ["q"] ["ab".toList] 100 (fun _ _ => 0) = Except.ok [[['a']]] :=
  ⟨rfl, rfl⟩

/-- Claim C2: on the chunked path (total converted document length at least
`max_characters`, with `max_characters` a positive budget as required by
the interface contract), the sum of the character lengths of all fragments
returned by `predict` across all documents never exceeds `max_characters`. -/
theorem C2_budget_respected (queries : List String) (docs : List Chunk) (maxc : Int)
    (score : String → Chunk → Int) (frags : List (List Chunk))
    (hpos : 0 < maxc)
    (hchunked : maxc ≤ ((docs.map List.length).sum : Int))
    (hok : predict queries docs maxc score = Except.ok frags) :
    (((frags.map (fun l => (l.map List.length).sum)).sum : Nat) : Int) ≤ maxc := by
  simp only [predict] at hok
  rw [if_neg (not_lt.mpr hchunked)] at hok
  have hfr := (Except.ok.inj hok).symm
  obtain ⟨_, _, _, h4, h5⟩ := chunkedSelect_selInv queries
    (docs.map (fun d => chunk_to_length d 512)) maxc score
  rw [hfr, selToTexts, selToTextsGo_sum, h4]
  rcases h5 with h | h
  · exact h
  · rw [h]
    exact_mod_cast hpos.le

/-- Witness for C2: one query, one 3-character document, budget 2: the
chunked path runs, the single 3-character chunk does not fit, and the
returned fragments have total length 0 ≤ 2. -/
theorem C2_budget_respected_witness :
    (((([[]] : List (List Chunk)).map (fun l => (l.map List.length).sum)).sum : Nat) : Int) ≤ 2 :=
  C2_budget_respected ["q"] ["abc".toList] 2 (fun _ _ => 0) [[]] (by decide)
    (by decide) rfl

/-- Claim C3: in every round of the allocation loop each query entry is
visited exactly once, in the order the queries were supplied, and the
entry with a non-empty candidate queue has exactly its head candidate
popped (an empty queue is skipped unchanged) — regardless of whether the
popped candidate is then added, discarded as a duplicate, or discarded for
not fitting the remaining budget.  Hence a popped candidate is gone from
the queues and is never reconsidered in a later round. -/
theorem C3_round_robin_one_shot (cds : List (List Chunk)) (maxc : Int)
    (qs : List (String × List Cand)) (sel : List (List Nat)) (total : Nat) :
    (allocRound cds maxc qs sel total).1 = qs.map (fun p => (p.1, p.2.tail)) :=
  allocRound_fst cds maxc qs sel total

/-- Counterexample to claim C4: `embed` does not order its per-query lists
by descending score.  With one query and two chunks scored 0 and 1, the
returned list is `[(0, 0), (1, 1)]` — ascending chunk index, not
descending score. -/
theorem C4_counterexample :
    ¬ (∀ p ∈ embed ["q"] [['a'], ['b']] (fun _ c => if c = ['b'] then (1 : Int) else 0),
        p.2.Pairwise (fun x y => y.2 ≤ x.2)) := by
  intro h
  have hmem : (("q", [((0 : Nat), (0 : Int)), (1, 1)]) : String × List (Nat × Int)) ∈
      embed ["q"] [['a'], ['b']] (fun _ c => if c = ['b'] then (1 : Int) else 0) := by
    decide
  have hp := h _ hmem
  have h01 : ((1 : Int) ≤ 0) := (List.pairwise_cons.mp hp).1 (1, 1) (by decide)
  omega

/-- Claim C4 (amended): for each query, `embed` returns the (chunk index,
score) pairs in ascending chunk-index order `0, 1, …` — the `i`-th pair
being `(i, score(query, chunk_i))` — without sorting by score; the
descending-score ordering is established only later by `predict`'s
per-query merge sort. -/
theorem C4_embed_order_amended (queries : List String) (chunks : List Chunk)
    (score : String → Chunk → Int) (p : String × List (Nat × Int))
    (hp : p ∈ embed queries chunks score) :
    p.2 = (List.range chunks.length).map (fun i => (i, score p.1 (chunks.getD i []))) :=
  embed_mem hp

/-- Witness for the amended C4 at one query and one chunk. -/
theorem C4_embed_order_amended_witness :
    (("q", [((0 : Nat), (5 : Int))]) : String × List (Nat × Int)).2 =
      (List.range 1).map (fun i => (i, (5 : Int))) :=
  C4_embed_order_amended ["q"] [['a']] (fun _ _ => 5) ("q", [(0, 5)]) (by decide)

/-- Claim C5: every per-query merged candidate queue built and sorted in
`predict` is ordered by descending score, and any two candidates with
equal scores appear in ascending (document index, chunk index) order —
`candR` is exactly that order. -/
theorem C5_merged_queue_sorted (queries : List String) (cds : List (List Chunk))
    (score : String → Chunk → Int) (p : String × List Cand)
    (hp : p ∈ sortQE (buildQE queries cds score)) :
    p.2.Pairwise candR := by
  rcases mem_sortQE hp with ⟨p', hp', heq⟩
  have hent := buildQE_entryOk queries cds score p' hp'
  have hpre : p'.2.Pairwise (fun a b => a.2.2 = b.2.2 → keyLt a b) := by
    refine hent.1.imp ?_
    intro a b hk _
    exact hk
  rw [heq]
  exact insertionSort_pairwise_candR p'.2 hpre

/-- Witness for C5: one query, one document with two chunks scored 0 and 1;
the merged queue is `[(0, 1, 1), (0, 0, 0)]`, sorted by descending score. -/
theorem C5_merged_queue_sorted_witness :
    ([((0 : Nat), (1 : Nat), (1 : Int)), (0, 0, 0)] : List Cand).Pairwise candR :=
  C5_merged_queue_sorted ["q"] [[['a'], ['b']]]
    (fun _ c => if c = ['b'] then (1 : Int) else 0)
    ("q", [(0, 1, 1), (0, 0, 0)]) (by decide)

/-- Claim C6: for every text and positive `max_length`, concatenating the
chunks returned by `chunk_to_length` in order reproduces the text exactly,
and every chunk except the last has length exactly `max_length`. -/
theorem C6_chunk_round_trip (text : List Char) (maxl : Nat) (_h : 0 < maxl) :
    (chunk_to_length text maxl).flatten = text ∧
      ∀ ch ∈ (chunk_to_length text maxl).dropLast, ch.length = maxl :=
  ⟨chunkGo_flatten maxl text.length text, chunkGo_dropLast maxl text.length text⟩

/-- Witness for C6: "abcde" at chunk size 3 gives ["abc", "de"]. -/
theorem C6_chunk_round_trip_witness :
    (chunk_to_length "abcde".toList 3).flatten = "abcde".toList ∧
      ∀ ch ∈ (chunk_to_length "abcde".toList 3).dropLast, ch.length = 3 :=
  C6_chunk_round_trip "abcde".toList 3 (by decide)

/-- Counterexample to claim C7: for the empty text `chunk_to_length`
returns one (empty) chunk, not ceil(0 / S) = 0 chunks. -/
theorem C7_counterexample :
    (chunk_to_length ([] : List Char) 5).length ≠
      (([] : List Char).length + 5 - 1) / 5 := by decide

/-- Claim C7 (amended): for every text of N characters and positive chunk
size S, `chunk_to_length` returns `max 1 (ceil(N / S))` chunks — i.e.
exactly ceil(N / S) chunks when N > 0, and a single empty chunk when
N = 0. -/
theorem C7_chunk_count_amended (text : List Char) (maxl : Nat) (h : 0 < maxl) :
    (chunk_to_length text maxl).length = max 1 ((text.length + maxl - 1) / maxl) :=
  chunkGo_length maxl h text.length text le_rfl

/-- Witness for the amended C7: "abcde" at chunk size 3 gives 2 chunks. -/
theorem C7_chunk_count_amended_witness :
    (chunk_to_length "abcde".toList 3).length = max 1 (("abcde".toList.length + 3 - 1) / 3) :=
  C7_chunk_count_amended "abcde".toList 3 (by decide)

/-- Claim C8: in every run of `predict`'s chunked path, no chunk index
appears more than once in any document's selected list. -/
theorem C8_no_duplicate_selection (queries : List String) (cds : List (List Chunk))
    (maxc : Int) (score : String → Chunk → Int) (l : List Nat)
    (hl : l ∈ chunkedSelect queries cds maxc score) : l.Nodup := by
  obtain ⟨h1, h2, h3, h4, h5⟩ := chunkedSelect_selInv queries cds maxc score
  rcases List.mem_iff_getElem.mp hl with ⟨i, hlen, heq⟩
  have hnd := h3 i
  rw [List.getD_eq_getElem _ _ hlen] at hnd
  rw [← heq]
  exact hnd

/-- Witness for C8: one query, one single-chunk document, budget 10: the
selected list for the document is `[0]`, duplicate-free. -/
theorem C8_no_duplicate_selection_witness : ([0] : List Nat).Nodup :=
  C8_no_duplicate_selection ["q"] [[['a']]] 10 (fun _ _ => 0) [0] (by decide)

/-- Counterexample to claim C9: there is no `InvalidBudget` rejection.
With `max_characters = 0` (non-positive) `predict` runs the whole chunked
pipeline and returns successfully (an empty fragment list per document)
instead of failing with an error. -/
theorem C9_counterexample :
    predict ["q"] ["abc".toList] 0 (fun _ _ => 0) = Except.ok [[]] := rfl

/-- Claim C9 (amended): `predict` performs no budget validation.  For every
non-positive `max_characters` it takes the chunked path (the fast-path
test fails because the total length is non-negative), the allocation loop
body never runs, and the call returns an empty fragment list for every
document without raising any error. -/
theorem C9_no_budget_validation (queries : List String) (docs : List Chunk)
    (maxc : Int) (score : String → Chunk → Int) (h : maxc ≤ 0) :
    predict queries docs maxc score = Except.ok (List.replicate docs.length []) := by
  simp only [predict]
  rw [if_neg ?hneg]
  case hneg =>
    intro hlt
    have h0 : (0 : Int) ≤ ((docs.map List.length).sum : Int) := Int.ofNat_nonneg _
    omega
  congr 1
  have hsel : chunkedSelect queries (docs.map (fun d => chunk_to_length d 512)) maxc score =
      List.replicate (docs.map (fun d => chunk_to_length d 512)).length [] := by
    unfold chunkedSelect allocLoop
    rw [allocLoopGo, if_neg (fun hc => absurd hc.1 (by omega))]
  rw [hsel, selToTexts, selToTextsGo_replicate]
  simp

/-- Witness for the amended C9 at budget -1. -/
theorem C9_no_budget_validation_witness :
    predict ["q"] [['a']] (-1) (fun _ _ => 0) = Except.ok (List.replicate 1 []) :=
  C9_no_budget_validation ["q"] [['a']] (-1) (fun _ _ => 0) (by decide)

/-- Claim C10: every candidate in the merged, sorted queues of `predict`
carries a document index that is in range for the chunked documents and a
chunk index in range for that document's chunk list (so the budget-check
lookup `chunked_docs[doc_idx][chunk_idx]` of every popped candidate is in
bounds), and the final selection has one entry per document with every
selected chunk index in range for its document (so the final mapping back
to chunk texts is in bounds). -/
theorem C10_indices_in_range (queries : List String) (cds : List (List Chunk))
    (maxc : Int) (score : String → Chunk → Int) :
    (∀ p ∈ sortQE (buildQE queries cds score), ∀ c ∈ p.2,
        c.1 < cds.length ∧ c.2.1 < (cds.getD c.1 []).length) ∧
    (chunkedSelect queries cds maxc score).length = cds.length ∧
    (∀ d : Nat, ∀ c ∈ (chunkedSelect queries cds maxc score).getD d [],
        c < (cds.getD d []).length) := by
  obtain ⟨h1, h2, _, _, _⟩ := chunkedSelect_selInv queries cds maxc score
  exact ⟨sortQE_buildQE_QOk queries cds score, h1, h2⟩

/-- Witness for C10 at one query and one single-chunk document. -/
theorem C10_indices_in_range_witness : (0 : Nat) < 1 ∧ (0 : Nat) < 1 :=
  (C10_indices_in_range ["q"] [[['a']]] 10 (fun _ _ => 0)).1 ("q", [(0, 0, 0)])
    (by decide) (0, 0, 0) (by decide)
